import Mathlib

/-
Verification of the hierarchical label-assignment algorithm, selection state
machine and resource lifecycle of x-window-selector.c, via a shallow
embedding of the relevant C functions into Lean.

Modelling conventions:
- An X window is identified by a natural number (`Window`).
- `window_setup_t` becomes the inductive `WSetup`: exactly one of `window`
  (with its overlay resources) and `children` is non-NULL in the C struct, so
  a setup is either a `leaf` (tracked window plus bound overlay) or a `node`
  (internal, `overlay_window == NULL`, carrying children).
- The C depth expression `(int)(log(max(n-1,1)) / log(k))` is modelled by the
  exact mathematical floor of the logarithm, `Nat.log k (max (n-1) 1)`.
- Binding an overlay (`overlay_create`, inside `initialise_window_setup`)
  and destroying it (`xcb_destroy_window` inside `wsetup_free`) are the
  bind/unbind events; a leaf's overlay handle is identified by the window it
  covers.  `wsetup_free` of a subtree unbinds the overlays of all leaves in
  that subtree, which `leafWindows` computes.
- `choose_window` and `xcw_exit_no_match` terminate the process; they are
  modelled as the terminal phases `selected`/`cancelled`, and the fact that
  they free nothing is modelled by not emitting unbind events.
-/

namespace XWS

abbrev Window := Nat

/-- Embedding of `window_setup_t`: a setup is a leaf (tracked window with a
bound overlay) or an internal node with children; both carry the character
that must be typed to select or descend. -/
inductive WSetup where
  | leaf (window : Window) (character : Char)
  | node (character : Char) (children : List WSetup)

/-- The `character` field of a `window_setup_t`. -/
def character : WSetup → Char
  | .leaf _ c => c
  | .node c _ => c

mutual
/-- Windows of all leaves of a subtree, left to right.  These are exactly the
overlay handles that `wsetup_free` destroys on this subtree (internal nodes
have `overlay_window == NULL`). -/
def leafWindows : WSetup → List Window
  | .leaf w _ => [w]
  | .node _ cs => leafWindowsList cs
/-- `leafWindows` over a forest, in order. -/
def leafWindowsList : List WSetup → List Window
  | [] => []
  | t :: ts => leafWindows t ++ leafWindowsList ts
end

mutual
/-- Character paths from the root of a subtree to each of its leaves, in
left-to-right leaf order.  A path is the string the user types to select
the corresponding window. -/
def leafPaths : WSetup → List (List Char)
  | .leaf _ c => [[c]]
  | .node c cs => (leafPathsList cs).map (fun p => c :: p)
/-- `leafPaths` over a forest, in order. -/
def leafPathsList : List WSetup → List (List Char)
  | [] => []
  | t :: ts => leafPaths t ++ leafPathsList ts
end

/-- The character of `ksl[i]` (`state->input->ksl[i].character`); total, with
an arbitrary default for an out-of-range index. -/
def kslChar (ksl : List Char) (i : Nat) : Char := ksl.getD i ' '

/-- The `remain_depth == 0` branch of `_initialise_window_tracking`: one
bottom-level setup (`initialise_window_setup`, which creates and binds an
overlay) per window, window `i` labelled with `ksl[i].character`. -/
def leavesFrom (ksl : List Char) : Nat → List Window → List WSetup
  | _, [] => []
  | i, w :: ws => WSetup.leaf w (kslChar ksl i) :: leavesFrom ksl (i + 1) ws

/-- The group loop of the `remain_depth > 0` branch of
`_initialise_window_tracking`: iteration `i` takes
`children_windows_size = if i < r then p+1 else p` windows off the front;
a size-1 group becomes a bottom-level setup for the first remaining window,
any other size becomes an internal setup whose children are built by `rec`
(the recursive call at `remain_depth - 1`). -/
def buildGroups (ksl : List Char) (rec : List Window → List WSetup)
    (p r : Nat) : Nat → Nat → List Window → List WSetup
  | 0, _, _ => []
  | fuel + 1, i, ws =>
      let g := if i < r then p + 1 else p
      (if g = 1 then WSetup.leaf (ws.headD 0) (kslChar ksl i)
       else WSetup.node (kslChar ksl i) (rec (ws.take g))) ::
      buildGroups ksl rec p r fuel (i + 1) (ws.drop g)

/-- Embedding of `_initialise_window_tracking` (recursion on `remain_depth`):
at depth 0 every window becomes a labelled leaf; otherwise the windows are
split into `n` groups (`p = windows_size / ksl_size`,
`r = windows_size % ksl_size`, `n = if p > 0 then ksl_size else r`). -/
def buildGo (ksl : List Char) : Nat → List Window → List WSetup
  | 0, ws => leavesFrom ksl 0 ws
  | d + 1, ws =>
      let p := ws.length / ksl.length
      let r := ws.length % ksl.length
      let n := if 0 < p then ksl.length else r
      buildGroups ksl (buildGo ksl d) p r n 0 ws

/-- The depth argument `(int)(log(max(windows_size - 1, 1)) / log(ksl_size))`
passed by `initialise_window_tracking`, modelled as the exact floor of the
real logarithm. -/
def trackingDepth (K N : Nat) : Nat := Nat.log K (max (N - 1) 1)

/-- Embedding of `initialise_window_tracking`: build the setup forest for the
tracked windows at the depth computed from the window count and key count. -/
def initialise_window_tracking (ksl : List Char) (ws : List Window) :
    List WSetup :=
  buildGo ksl (trackingDepth ksl.length ws.length) ws

/-- Session phase: awaiting further input with a current frontier, or one of
the two terminal outcomes (in the C program both terminal phases exit the
process). -/
inductive Phase where
  | awaiting (frontier : List WSetup)
  | selected (window : Window)
  | cancelled

/-- Embedding of `wsetup_choose`: a bottom-level setup selects its window
(`choose_window` prints it and exits), an internal setup replaces the current
frontier with its children. -/
def wsetup_choose : WSetup → Phase
  | .leaf w _ => Phase.selected w
  | .node _ cs => Phase.awaiting cs

/-- The loop of `wsetups_descend_by_index` over the captured frontier,
carrying the running index `i`: the setup at `index` is chosen, every other
setup is freed (`wsetup_free`, unbinding all leaf overlays of its subtree).
If the chosen setup is a leaf the process exits inside `wsetup_choose`, so
the iterations after `index` never run.  Returns the phase decided at
`index` (if reached) and the unbound overlay handles in unbind order. -/
def descendLoop (index : Nat) : Nat → List WSetup → Option Phase × List Window
  | _, [] => (none, [])
  | i, t :: ts =>
      if i = index then
        match t with
        | WSetup.leaf w _ => (some (Phase.selected w), [])
        | WSetup.node _ cs =>
            (some (Phase.awaiting cs), (descendLoop index (i + 1) ts).2)
      else
        ((descendLoop index (i + 1) ts).1,
          leafWindows t ++ (descendLoop index (i + 1) ts).2)

/-- Embedding of `wsetups_descend_by_index`. -/
def wsetups_descend_by_index (ws : List WSetup) (index : Nat) :
    Option Phase × List Window :=
  descendLoop index 0 ws

/-- The search loop of `wsetups_descend_by_char`: first index whose setup
carries the typed character. -/
def findCharLoop (c : Char) : Nat → List WSetup → Option Nat
  | _, [] => none
  | i, t :: ts => if character t = c then some i else findCharLoop c (i + 1) ts

/-- Embedding of `wsetups_descend_by_char`: no matching setup means
`xcw_exit_no_match()` (cancelled, nothing freed), otherwise descend by the
found index. -/
def wsetups_descend_by_char (ws : List WSetup) (c : Char) :
    Option Phase × List Window :=
  match findCharLoop c 0 ws with
  | none => (some Phase.cancelled, [])
  | some i => wsetups_descend_by_index ws i

/-- Resource-instrumented session state: current phase, the overlay handles
currently bound (`live`, identified by the window each overlay covers), and
cumulative bind and unbind counts. -/
structure Session where
  phase : Phase
  live : List Window
  binds : Nat
  unbinds : Nat

/-- The session as set up by `main` after `initialise_window_tracking`:
every leaf of the built forest has had an overlay bound
(`initialise_window_setup`); an empty forest exits with no match, a
singleton forest is fed to `wsetup_choose` immediately, otherwise the
program awaits input with the forest as frontier. -/
def initSession (ksl : List Char) (ws : List Window) : Session :=
  let f := initialise_window_tracking ksl ws
  let lv := leafWindowsList f
  match f with
  | [] => { phase := Phase.cancelled, live := lv, binds := lv.length, unbinds := 0 }
  | [t] => { phase := wsetup_choose t, live := lv, binds := lv.length, unbinds := 0 }
  | t :: u :: rest =>
      { phase := Phase.awaiting (t :: u :: rest), live := lv,
        binds := lv.length, unbinds := 0 }

/-- One keypress handled by `handle_keypress` / `wsetups_descend_by_char`
while awaiting input: the freed overlay handles leave the live set and are
counted as unbinds.  A terminal phase can never receive another keypress in
the C program (the process has exited), so it is left unchanged. -/
def consume (s : Session) (c : Char) : Session :=
  match s.phase with
  | Phase.awaiting f =>
      let step := wsetups_descend_by_char f c
      { phase := match step.1 with
          | some ph => ph
          | none => Phase.awaiting f,
        live := s.live.diff step.2,
        binds := s.binds,
        unbinds := s.unbinds + step.2.length }
  | _ => s

/-- Feed a sequence of characters to the session, one `consume` at a time. -/
def runConsume (s : Session) : List Char → Session
  | [] => s
  | c :: cs => runConsume (consume s c) cs

/-- Current frontier of a phase (empty for terminal phases). -/
def frontierOf : Phase → List WSetup
  | Phase.awaiting f => f
  | _ => []

/-- Whether a given setup node currently holds a bound overlay handle: only
leaves ever hold one, and it is live while its window is in the live set. -/
def holdsHandle (s : Session) : WSetup → Bool
  | WSetup.leaf w _ => s.live.contains w
  | WSetup.node _ _ => false

/-- Resource invariant of an instrumented session: the live overlay handles
are pairwise distinct, the bind count always equals the unbind count plus the
number of currently live handles, and while input is awaited the live
handles are exactly the overlays of the leaves of the current forest. -/
def sessionInv (s : Session) : Prop :=
  s.live.Nodup ∧ s.binds = s.unbinds + s.live.length ∧
  ∀ f, s.phase = Phase.awaiting f → s.live = leafWindowsList f

mutual
/-- Structural well-formedness of the sibling groups of one subtree: every
internal node has at most `K` children and its children carry pairwise
distinct characters (so every `ksl[i]` lookup that labelled them was in
bounds of the `K`-entry key list). -/
def groupsOk (K : Nat) : WSetup → Bool
  | .leaf _ _ => true
  | .node _ cs =>
      (decide (cs.length ≤ K) && decide ((cs.map character).Nodup)) &&
      groupsOkList K cs
/-- `groupsOk` over a forest. -/
def groupsOkList (K : Nat) : List WSetup → Bool
  | [] => true
  | t :: ts => groupsOk K t && groupsOkList K ts
end

/-- Size-level shadow of the group loop of `_initialise_window_tracking`:
collects the `windows_size` arguments of the recursive calls made for groups
of size other than 1 (size-1 groups call `initialise_window_setup` instead). -/
def baseSizesLoop (rec : Nat → List Nat) (p r : Nat) :
    Nat → Nat → List Nat
  | 0, _ => []
  | fuel + 1, i =>
      let g := if i < r then p + 1 else p
      (if g = 1 then [] else rec g) ++ baseSizesLoop rec p r fuel (i + 1)

/-- Size-level shadow of `_initialise_window_tracking`: the list of
`windows_size` values with which the `remain_depth == 0` base case is
reached, starting from depth `d` and `s` windows. -/
def baseSizes (K : Nat) : Nat → Nat → List Nat
  | 0, s => [s]
  | d + 1, s =>
      let p := s / K
      let r := s % K
      let n := if 0 < p then K else r
      baseSizesLoop (baseSizes K d) p r n 0

/-- The characters of `ALL_KEYSYMS_LOOKUP`: the only characters accepted in
the `CHARACTERS` argument. -/
def ALL_CHARS : List Char := "0123456789abcdefghijklmnopqrstuvwxyz".toList

/-- The validation loop of `parse_arg_characters`: each character must appear
in `ALL_KEYSYMS_LOOKUP` (otherwise `argp_error`, modelled as `Except.error`);
a character already in the compiled lookup is skipped silently; after the
loop, fewer than two compiled entries is an error. -/
def parseChars (acc : List Char) : List Char → Except String (List Char)
  | [] =>
      if acc.length < 2 then Except.error "expected at least two characters"
      else Except.ok acc
  | c :: rest =>
      if c ∈ ALL_CHARS then
        if c ∈ acc then parseChars acc rest
        else parseChars (acc ++ [c]) rest
      else Except.error "unknown character"

/-- Embedding of `parse_arg_characters` on the character pool string. -/
def parse_arg_characters (pool : List Char) : Except String (List Char) :=
  parseChars [] pool

/-- Offset of group `i` in the group loop: the total number of windows
consumed by iterations `0 .. i-1` (`p` windows per iteration plus one extra
for each of the first `r` iterations). -/
def gstart (p r i : Nat) : Nat := i * p + min i r

/-- Size of group `i` in the group loop. -/
def gsize (p r i : Nat) : Nat := if i < r then p + 1 else p

/-- Modelled from the spec (section 4.1): group `i` of the partition of the
item list into `m = min(N,K)` ordered, order-preserving groups with base
size `p = N / K` and remainder `r = N % K`, the first `r` groups taking
`p + 1` items and the rest `p`.  Group `i` therefore starts at offset
`i * p + min i r`. -/
def specGroup (ws : List Window) (K i : Nat) : List Window :=
  (ws.drop (i * (ws.length / K) + min i (ws.length % K))).take
    (if i < ws.length % K then ws.length / K + 1 else ws.length / K)

/-- Modelled from the spec (section 4.1): the full ordered partition of the
item list into `m = min(N,K)` groups. -/
def specPartition (ws : List Window) (K : Nat) : List (List Window) :=
  (List.range (min ws.length K)).map (specGroup ws K)

/- Lemmas about the group loop arithmetic. -/

lemma gstart_succ (p r i : Nat) : gstart p r (i + 1) = gstart p r i + gsize p r i := by
  unfold gstart gsize
  rcases lt_or_le i r with h | h
  · have h1 : min i r = i := by omega
    have h2 : min (i + 1) r = i + 1 := by omega
    rw [h1, h2, Nat.succ_mul]
    simp only [if_pos h]
    omega
  · have h1 : min i r = r := by omega
    have h2 : min (i + 1) r = r := by omega
    rw [h1, h2, Nat.succ_mul]
    simp only [if_neg (by omega : ¬ i < r)]
    omega

lemma gstart_mono (p r : Nat) {i j : Nat} (h : i ≤ j) :
    gstart p r i ≤ gstart p r j := by
  unfold gstart
  have h1 : i * p ≤ j * p := Nat.mul_le_mul_right p h
  have h2 : min i r ≤ min j r := min_le_min h (le_refl r)
  omega

lemma gstart_total (K N : Nat) :
    gstart (N / K) (N % K) (if 0 < N / K then K else N % K) = N := by
  rcases Nat.eq_zero_or_pos K with hK | hK
  · subst hK
    simp [gstart, Nat.div_zero, Nat.mod_zero]
  · rcases Nat.lt_or_ge N K with hNK | hNK
    · have hp : N / K = 0 := Nat.div_eq_of_lt hNK
      have hr : N % K = N := Nat.mod_eq_of_lt hNK
      simp [gstart, hp, hr]
    · have hp : 0 < N / K := Nat.div_pos hNK hK
      have hr : N % K < K := Nat.mod_lt N hK
      simp only [if_pos hp]
      unfold gstart
      have hmin : min K (N % K) = N % K := by omega
      rw [hmin]
      exact Nat.div_add_mod N K

/- Lemmas about the leaf windows of built forests. -/

lemma leafWindowsList_append (l₁ l₂ : List WSetup) :
    leafWindowsList (l₁ ++ l₂) = leafWindowsList l₁ ++ leafWindowsList l₂ := by
  induction l₁ with
  | nil => simp [leafWindowsList]
  | cons t ts ih => simp [leafWindowsList, ih]

lemma leafWindowsList_leavesFrom (ksl : List Char) :
    ∀ (ws : List Window) (i : Nat), leafWindowsList (leavesFrom ksl i ws) = ws := by
  intro ws
  induction ws with
  | nil => intro i; rfl
  | cons w tl ih =>
      intro i
      simp [leavesFrom, leafWindowsList, leafWindows, ih]

lemma leafWindowsList_buildGroups (ksl : List Char)
    (rec : List Window → List WSetup)
    (hrec : ∀ v, leafWindowsList (rec v) = v) (p r : Nat) :
    ∀ fuel i ws, ws.length + gstart p r i = gstart p r (i + fuel) →
      leafWindowsList (buildGroups ksl rec p r fuel i ws) = ws := by
  intro fuel
  induction fuel with
  | zero =>
      intro i ws h
      rw [Nat.add_zero] at h
      have : ws.length = 0 := by omega
      rw [List.length_eq_zero] at this
      subst this
      rfl
  | succ fuel ih =>
      intro i ws h
      have h1 : gstart p r (i + 1) = gstart p r i + gsize p r i := gstart_succ p r i
      have h2 : ws.length + gstart p r i = gstart p r ((i + 1) + fuel) := by
        have : i + (fuel + 1) = (i + 1) + fuel := by omega
        rw [← this]; exact h
      have h3 : gstart p r (i + 1) ≤ gstart p r ((i + 1) + fuel) :=
        gstart_mono p r (by omega)
      have hg : gsize p r i ≤ ws.length := by omega
      have hdrop : (ws.drop (gsize p r i)).length + gstart p r (i + 1) =
          gstart p r ((i + 1) + fuel) := by
        rw [List.length_drop]; omega
      show leafWindowsList
        ((if (if i < r then p + 1 else p) = 1
          then WSetup.leaf (ws.headD 0) (kslChar ksl i)
          else WSetup.node (kslChar ksl i) (rec (ws.take (if i < r then p + 1 else p)))) ::
          buildGroups ksl rec p r fuel (i + 1)
            (ws.drop (if i < r then p + 1 else p))) = ws
      have hgs : (if i < r then p + 1 else p) = gsize p r i := rfl
      rw [hgs]
      rcases eq_or_ne (gsize p r i) 1 with h1g | h1g
      · rw [if_pos h1g, h1g]
        rcases ws with _ | ⟨w, tl⟩
        · simp [h1g] at hg
        · simp only [List.headD_cons, List.drop_succ_cons, List.drop_zero]
          show leafWindows (WSetup.leaf w (kslChar ksl i)) ++
            leafWindowsList (buildGroups ksl rec p r fuel (i + 1) tl) = w :: tl
          rw [leafWindows]
          have htl : tl.length + gstart p r (i + 1) = gstart p r ((i + 1) + fuel) := by
            have := hdrop
            rw [h1g] at this
            simpa using this
          rw [ih (i + 1) tl htl]
          rfl
      · rw [if_neg h1g]
        show leafWindows (WSetup.node (kslChar ksl i) (rec (ws.take (gsize p r i)))) ++
          leafWindowsList (buildGroups ksl rec p r fuel (i + 1)
            (ws.drop (gsize p r i))) = ws
        rw [leafWindows, hrec, ih (i + 1) _ hdrop, List.take_append_drop]

lemma leafWindowsList_buildGo (ksl : List Char) :
    ∀ (d : Nat) (ws : List Window), leafWindowsList (buildGo ksl d ws) = ws := by
  intro d
  induction d with
  | zero => intro ws; exact leafWindowsList_leavesFrom ksl ws 0
  | succ d ih =>
      intro ws
      show leafWindowsList (buildGroups ksl (buildGo ksl d)
        (ws.length / ksl.length) (ws.length % ksl.length)
        (if 0 < ws.length / ksl.length then ksl.length else ws.length % ksl.length)
        0 ws) = ws
      apply leafWindowsList_buildGroups ksl (buildGo ksl d) ih
      have h0 : gstart (ws.length / ksl.length) (ws.length % ksl.length) 0 = 0 := by
        simp [gstart]
      rw [Nat.zero_add, h0, Nat.add_zero, gstart_total ksl.length ws.length]

/- Lemmas about leaf paths. -/

lemma leafPathsList_append (l₁ l₂ : List WSetup) :
    leafPathsList (l₁ ++ l₂) = leafPathsList l₁ ++ leafPathsList l₂ := by
  induction l₁ with
  | nil => simp [leafPathsList]
  | cons t ts ih => simp [leafPathsList, ih]

lemma leafPathsList_leavesFrom (ksl : List Char) :
    ∀ (ws : List Window) (i : Nat),
      leafPathsList (leavesFrom ksl i ws) =
        (List.range' i ws.length).map (fun j => [kslChar ksl j]) := by
  intro ws
  induction ws with
  | nil => intro i; rfl
  | cons w tl ih =>
      intro i
      rw [show (w :: tl).length = tl.length + 1 from rfl, List.range'_succ i tl.length 1]
      simp [leavesFrom, leafPathsList, leafPaths, ih]

lemma leafPaths_buildGroups_le (ksl : List Char)
    (rec : List Window → List WSetup) (p r D : Nat)
    (hrec : ∀ v q, q ∈ leafPathsList (rec v) → q.length ≤ D) :
    ∀ fuel i ws q, q ∈ leafPathsList (buildGroups ksl rec p r fuel i ws) →
      q.length ≤ D + 1 := by
  intro fuel
  induction fuel with
  | zero => intro i ws q hq; simp [buildGroups, leafPathsList] at hq
  | succ fuel ih =>
      intro i ws q hq
      rw [show buildGroups ksl rec p r (fuel + 1) i ws =
        (if (if i < r then p + 1 else p) = 1
          then WSetup.leaf (ws.headD 0) (kslChar ksl i)
          else WSetup.node (kslChar ksl i) (rec (ws.take (if i < r then p + 1 else p)))) ::
          buildGroups ksl rec p r fuel (i + 1)
            (ws.drop (if i < r then p + 1 else p)) from rfl] at hq
      rw [show ∀ t ts, leafPathsList (t :: ts) = leafPaths t ++ leafPathsList ts
        from fun _ _ => rfl] at hq
      rcases List.mem_append.1 hq with hh | ht
      · rcases eq_or_ne (if i < r then p + 1 else p) 1 with h1 | h1
        · rw [if_pos h1] at hh
          simp only [leafPaths, List.mem_singleton] at hh
          subst hh
          simp
        · rw [if_neg h1] at hh
          simp only [leafPaths, List.mem_map] at hh
          rcases hh with ⟨q2, hq2, hq2e⟩
          subst hq2e
          have := hrec _ _ hq2
          simp
          omega
      · exact ih (i + 1) _ q ht

lemma leafPaths_buildGo_le (ksl : List Char) :
    ∀ (d : Nat) (ws : List Window) (q : List Char),
      q ∈ leafPathsList (buildGo ksl d ws) → q.length ≤ d + 1 := by
  intro d
  induction d with
  | zero =>
      intro ws q hq
      rw [show buildGo ksl 0 ws = leavesFrom ksl 0 ws from rfl,
        leafPathsList_leavesFrom ksl ws 0] at hq
      rcases List.mem_map.1 hq with ⟨j, _, hj⟩
      subst hj
      simp
  | succ d ih =>
      intro ws q hq
      exact leafPaths_buildGroups_le ksl (buildGo ksl d) _ _ (d + 1)
        (fun v r hr => ih v r hr) _ 0 ws q hq

/- Character lemmas. -/

lemma leavesFrom_chars (ksl : List Char) :
    ∀ (ws : List Window) (i : Nat),
      (leavesFrom ksl i ws).map character =
        (List.range' i ws.length).map (kslChar ksl) := by
  intro ws
  induction ws with
  | nil => intro i; rfl
  | cons w tl ih =>
      intro i
      rw [show (w :: tl).length = tl.length + 1 from rfl, List.range'_succ i tl.length 1]
      simp [leavesFrom, character, ih]

lemma leavesFrom_length (ksl : List Char) :
    ∀ (ws : List Window) (i : Nat), (leavesFrom ksl i ws).length = ws.length := by
  intro ws
  induction ws with
  | nil => intro i; rfl
  | cons w tl ih => intro i; simp [leavesFrom, ih]

lemma buildGroups_length (ksl : List Char) (rec : List Window → List WSetup)
    (p r : Nat) :
    ∀ fuel i ws, (buildGroups ksl rec p r fuel i ws).length = fuel := by
  intro fuel
  induction fuel with
  | zero => intro i ws; rfl
  | succ fuel ih => intro i ws; simp [buildGroups, ih]

lemma buildGroups_chars (ksl : List Char) (rec : List Window → List WSetup)
    (p r : Nat) :
    ∀ fuel i ws, (buildGroups ksl rec p r fuel i ws).map character =
      (List.range' i fuel).map (kslChar ksl) := by
  intro fuel
  induction fuel with
  | zero => intro i ws; rfl
  | succ fuel ih =>
      intro i ws
      rw [List.range'_succ i fuel 1]
      show character (if (if i < r then p + 1 else p) = 1
          then WSetup.leaf (ws.headD 0) (kslChar ksl i)
          else WSetup.node (kslChar ksl i) (rec (ws.take (if i < r then p + 1 else p)))) ::
        (buildGroups ksl rec p r fuel (i + 1)
          (ws.drop (if i < r then p + 1 else p))).map character =
        kslChar ksl i :: (List.range' (i + 1) fuel).map (kslChar ksl)
      rw [ih]
      rcases eq_or_ne (if i < r then p + 1 else p) 1 with h1 | h1
      · rw [if_pos h1]; rfl
      · rw [if_neg h1]; rfl

lemma buildGroups_mem (ksl : List Char) (rec : List Window → List WSetup)
    (p r : Nat) :
    ∀ fuel i ws t, t ∈ buildGroups ksl rec p r fuel i ws →
      (∃ w c, t = WSetup.leaf w c) ∨
      (∃ j v, t = WSetup.node (kslChar ksl j) (rec v) ∧
        v.length ≤ p + 1 ∧ (r = 0 → v.length ≤ p)) := by
  intro fuel
  induction fuel with
  | zero => intro i ws t ht; simp [buildGroups] at ht
  | succ fuel ih =>
      intro i ws t ht
      rw [show buildGroups ksl rec p r (fuel + 1) i ws =
        (if (if i < r then p + 1 else p) = 1
          then WSetup.leaf (ws.headD 0) (kslChar ksl i)
          else WSetup.node (kslChar ksl i) (rec (ws.take (if i < r then p + 1 else p)))) ::
          buildGroups ksl rec p r fuel (i + 1)
            (ws.drop (if i < r then p + 1 else p)) from rfl] at ht
      rcases List.mem_cons.1 ht with hh | htl
      · rcases eq_or_ne (if i < r then p + 1 else p) 1 with h1 | h1
        · rw [if_pos h1] at hh
          exact Or.inl ⟨ws.headD 0, kslChar ksl i, hh⟩
        · rw [if_neg h1] at hh
          refine Or.inr ⟨i, ws.take (if i < r then p + 1 else p), hh, ?_, ?_⟩
          · rcases lt_or_le i r with h | h
            · rw [if_pos h]
              exact le_trans (List.length_take_le _ _) (le_refl _)
            · rw [if_neg (by omega : ¬ i < r)]
              exact le_trans (List.length_take_le _ _) (by omega)
          · intro hr0
            rw [if_neg (by omega : ¬ i < r)]
            exact List.length_take_le _ _
      · exact ih (i + 1) _ t htl

/- Distinctness machinery. -/

lemma kslChar_inj (ksl : List Char) (hnd : ksl.Nodup) {i j : Nat}
    (hi : i < ksl.length) (hj : j < ksl.length)
    (h : kslChar ksl i = kslChar ksl j) : i = j := by
  unfold kslChar at h
  rw [List.getD_eq_getElem ksl ' ' hi, List.getD_eq_getElem ksl ' ' hj] at h
  exact (List.Nodup.getElem_inj_iff hnd).1 h

lemma chars_range_nodup (ksl : List Char) (hnd : ksl.Nodup) (s n : Nat)
    (h : s + n ≤ ksl.length) :
    ((List.range' s n).map (kslChar ksl)).Nodup := by
  apply List.Nodup.map_on
  · intro i hi j hj hij
    rw [List.mem_range'_1] at hi hj
    exact kslChar_inj ksl hnd (by omega) (by omega) hij
  · exact List.nodup_range' s n

lemma mem_leafPathsList :
    ∀ (l : List WSetup) (q : List Char), q ∈ leafPathsList l →
      ∃ t, t ∈ l ∧ q ∈ leafPaths t := by
  intro l
  induction l with
  | nil => intro q hq; simp [leafPathsList] at hq
  | cons t ts ih =>
      intro q hq
      rw [show leafPathsList (t :: ts) = leafPaths t ++ leafPathsList ts from rfl] at hq
      rcases List.mem_append.1 hq with h | h
      · exact ⟨t, List.mem_cons_self t ts, h⟩
      · rcases ih q h with ⟨u, hu, hqu⟩
        exact ⟨u, List.mem_cons_of_mem t hu, hqu⟩

lemma leafPaths_shape (t : WSetup) :
    ∀ q ∈ leafPaths t, ∃ q2, q = character t :: q2 := by
  rcases t with ⟨w, c⟩ | ⟨c, cs⟩
  · intro q hq
    simp only [leafPaths, List.mem_singleton] at hq
    exact ⟨[], hq⟩
  · intro q hq
    simp only [leafPaths, List.mem_map] at hq
    rcases hq with ⟨q2, _, hq2⟩
    exact ⟨q2, hq2.symm⟩

lemma leafPathsList_nodup (l : List WSetup)
    (hc : (l.map character).Nodup)
    (ht : ∀ t ∈ l, (leafPaths t).Nodup) :
    (leafPathsList l).Nodup := by
  induction l with
  | nil => simp [leafPathsList]
  | cons t ts ih =>
      rw [show leafPathsList (t :: ts) = leafPaths t ++ leafPathsList ts from rfl]
      rw [List.map_cons] at hc
      have hc2 := List.nodup_cons.1 hc
      apply List.Nodup.append
      · exact ht t (List.mem_cons_self t ts)
      · exact ih hc2.2 (fun u hu => ht u (List.mem_cons_of_mem t hu))
      · intro q hq1 hq2
        rcases leafPaths_shape t q hq1 with ⟨q2, hq2e⟩
        rcases mem_leafPathsList ts q hq2 with ⟨u, hu, hqu⟩
        rcases leafPaths_shape u q hqu with ⟨q3, hq3e⟩
        have : character t = character u := by
          rw [hq2e] at hq3e
          exact List.head_eq_of_cons_eq hq3e
        exact hc2.1 (this ▸ List.mem_map_of_mem character hu)

/- Arithmetic bounds for the recursion invariant. -/

lemma group_size_le (K d s : Nat) (hK : 1 ≤ K) (hs : s ≤ K ^ (d + 2)) :
    (s % K ≠ 0 → s / K + 1 ≤ K ^ (d + 1)) ∧ s / K ≤ K ^ (d + 1) := by
  have hpow : K ^ (d + 2) = K ^ (d + 1) * K := by rw [pow_succ]
  constructor
  · intro hr
    have hne : s ≠ K ^ (d + 2) := by
      intro he
      apply hr
      rw [he, hpow]
      exact Nat.mul_mod_left _ _
    have hlt : s < K ^ (d + 1) * K := by omega
    have := (Nat.div_lt_iff_lt_mul (by omega : 0 < K)).2 hlt
    omega
  · calc s / K ≤ K ^ (d + 2) / K := Nat.div_le_div_right hs
      _ = K ^ (d + 1) := by rw [hpow, Nat.mul_div_cancel _ (by omega : 0 < K)]

lemma tracking_invariant (K N : Nat) (hK : 2 ≤ K) :
    N ≤ K ^ (trackingDepth K N + 1) := by
  unfold trackingDepth
  have h1 : max (N - 1) 1 < K ^ (Nat.log K (max (N - 1) 1) + 1) :=
    Nat.lt_pow_succ_log_self (by omega) _
  omega

lemma groupsOkList_iff (K : Nat) :
    ∀ l : List WSetup, groupsOkList K l = true ↔ ∀ t ∈ l, groupsOk K t = true := by
  intro l
  induction l with
  | nil => simp [groupsOkList]
  | cons t ts ih =>
      rw [show groupsOkList K (t :: ts) = (groupsOk K t && groupsOkList K ts) from rfl]
      rw [Bool.and_eq_true, ih]
      constructor
      · rintro ⟨h1, h2⟩ u hu
        rcases List.mem_cons.1 hu with h | h
        · exact h ▸ h1
        · exact h2 u h
      · intro h
        exact ⟨h t (List.mem_cons_self t ts), fun u hu => h u (List.mem_cons_of_mem t hu)⟩

lemma groupsOkList_leavesFrom (ksl : List Char) (K : Nat) :
    ∀ (ws : List Window) (i : Nat), groupsOkList K (leavesFrom ksl i ws) = true := by
  intro ws
  induction ws with
  | nil => intro i; rfl
  | cons w tl ih =>
      intro i
      show (groupsOk K (WSetup.leaf w (kslChar ksl i)) &&
        groupsOkList K (leavesFrom ksl (i + 1) tl)) = true
      rw [ih]
      rfl

/-- Main structural soundness of the builder: under the recursion invariant
`windows_size ≤ K ^ (remain_depth + 1)`, the built forest has at most `K`
members with pairwise-distinct characters, pairwise-distinct leaf paths, and
well-formed sibling groups throughout. -/
lemma build_sound (ksl : List Char) (hnd : ksl.Nodup) (hK : 2 ≤ ksl.length) :
    ∀ (d : Nat) (ws : List Window), ws.length ≤ ksl.length ^ (d + 1) →
      (buildGo ksl d ws).length ≤ ksl.length ∧
      ((buildGo ksl d ws).map character).Nodup ∧
      (leafPathsList (buildGo ksl d ws)).Nodup ∧
      groupsOkList ksl.length (buildGo ksl d ws) = true := by
  intro d
  induction d with
  | zero =>
      intro ws hws
      rw [pow_one] at hws
      rw [show buildGo ksl 0 ws = leavesFrom ksl 0 ws from rfl]
      refine ⟨?_, ?_, ?_, groupsOkList_leavesFrom ksl ksl.length ws 0⟩
      · rw [leavesFrom_length]; exact hws
      · rw [leavesFrom_chars]
        exact chars_range_nodup ksl hnd 0 ws.length (by omega)
      · rw [leafPathsList_leavesFrom]
        have : (List.range' 0 ws.length).map (fun j => [kslChar ksl j]) =
            ((List.range' 0 ws.length).map (kslChar ksl)).map (fun c => [c]) := by
          rw [List.map_map]; rfl
        rw [this]
        exact (chars_range_nodup ksl hnd 0 ws.length (by omega)).map
          (fun a b hab => List.head_eq_of_cons_eq hab)
  | succ d ih =>
      intro ws hws
      have hfold : buildGo ksl (d + 1) ws =
          buildGroups ksl (buildGo ksl d)
            (ws.length / ksl.length) (ws.length % ksl.length)
            (if 0 < ws.length / ksl.length then ksl.length
             else ws.length % ksl.length) 0 ws := rfl
      have hnle : (if 0 < ws.length / ksl.length then ksl.length
          else ws.length % ksl.length) ≤ ksl.length := by
        rcases eq_or_ne (ws.length / ksl.length) 0 with h | h
        · rw [if_neg (by omega : ¬ 0 < ws.length / ksl.length)]
          have := Nat.mod_lt ws.length (show 0 < ksl.length by omega)
          omega
        · rw [if_pos (Nat.pos_of_ne_zero h)]
      have hmem : ∀ t ∈ buildGo ksl (d + 1) ws,
          (leafPaths t).Nodup ∧ groupsOk ksl.length t = true := by
        intro t ht
        rw [hfold] at ht
        rcases buildGroups_mem ksl (buildGo ksl d) _ _ _ 0 ws t ht with
          ⟨w, c, he⟩ | ⟨j, v, he, hv1, hv2⟩
        · subst he
          exact ⟨List.nodup_singleton _, rfl⟩
        · have hvlen : v.length ≤ ksl.length ^ (d + 1) := by
            have hgs := group_size_le ksl.length d ws.length (by omega) hws
            rcases eq_or_ne (ws.length % ksl.length) 0 with hr | hr
            · have := hv2 hr
              omega
            · have := hgs.1 hr
              omega
          have hrec := ih v hvlen
          subst he
          constructor
          · rw [show leafPaths (WSetup.node (kslChar ksl j) (buildGo ksl d v)) =
              (leafPathsList (buildGo ksl d v)).map
                (fun p => kslChar ksl j :: p) from rfl]
            exact hrec.2.2.1.map (fun a b hab => List.tail_eq_of_cons_eq hab)
          · rw [show groupsOk ksl.length (WSetup.node (kslChar ksl j) (buildGo ksl d v)) =
              ((decide ((buildGo ksl d v).length ≤ ksl.length) &&
                decide (((buildGo ksl d v).map character).Nodup)) &&
                groupsOkList ksl.length (buildGo ksl d v)) from rfl]
            rw [decide_eq_true hrec.1, decide_eq_true hrec.2.1, hrec.2.2.2]
            rfl
      have hchars : ((buildGo ksl (d + 1) ws).map character).Nodup := by
        rw [hfold, buildGroups_chars]
        exact chars_range_nodup ksl hnd 0 _ (by omega)
      refine ⟨?_, hchars, ?_, ?_⟩
      · rw [hfold, buildGroups_length]
        exact hnle
      · exact leafPathsList_nodup _ hchars (fun t ht => (hmem t ht).1)
      · exact (groupsOkList_iff ksl.length _).2 (fun t ht => (hmem t ht).2)

/- Characterisation of the descend loops. -/

lemma descendLoop_cons (index i : Nat) (t : WSetup) (ts : List WSetup) :
    descendLoop index i (t :: ts) =
      if i = index then
        match t with
        | WSetup.leaf w _ => (some (Phase.selected w), [])
        | WSetup.node _ cs =>
            (some (Phase.awaiting cs), (descendLoop index (i + 1) ts).2)
      else
        ((descendLoop index (i + 1) ts).1,
          leafWindows t ++ (descendLoop index (i + 1) ts).2) := rfl

lemma descendLoop_none (index : Nat) :
    ∀ (l : List WSetup) (j : Nat), index < j →
      descendLoop index j l = (none, leafWindowsList l) := by
  intro l
  induction l with
  | nil => intro j hj; rfl
  | cons t ts ih =>
      intro j hj
      rw [descendLoop_cons, if_neg (by omega : ¬ j = index), ih (j + 1) (by omega)]
      rfl

lemma descend_spec_leaf (w : Window) (c : Char) :
    ∀ (pre : List WSetup) (post : List WSetup) (j : Nat),
      descendLoop (j + pre.length) j (pre ++ WSetup.leaf w c :: post) =
        (some (Phase.selected w), leafWindowsList pre) := by
  intro pre
  induction pre with
  | nil =>
      intro post j
      rw [List.nil_append, descendLoop_cons, if_pos (by simp)]
      rfl
  | cons u pre ih =>
      intro post j
      rw [List.cons_append, descendLoop_cons, if_neg (by simp)]
      have harg : j + (u :: pre).length = (j + 1) + pre.length := by
        simp only [List.length_cons]; omega
      rw [harg, ih post (j + 1)]
      rfl

lemma descend_spec_node (c : Char) (cs : List WSetup) :
    ∀ (pre : List WSetup) (post : List WSetup) (j : Nat),
      descendLoop (j + pre.length) j (pre ++ WSetup.node c cs :: post) =
        (some (Phase.awaiting cs), leafWindowsList pre ++ leafWindowsList post) := by
  intro pre
  induction pre with
  | nil =>
      intro post j
      rw [List.nil_append, descendLoop_cons, if_pos (by simp)]
      rw [descendLoop_none (j + [].length) post (j + 1) (by simp)]
      rfl
  | cons u pre ih =>
      intro post j
      rw [List.cons_append, descendLoop_cons, if_neg (by simp)]
      have harg : j + (u :: pre).length = (j + 1) + pre.length := by
        simp only [List.length_cons]; omega
      rw [harg, ih post (j + 1)]
      rw [show leafWindowsList (u :: pre) = leafWindows u ++ leafWindowsList pre from rfl,
        List.append_assoc]

lemma findCharLoop_none (c : Char) :
    ∀ (l : List WSetup) (i : Nat), (∀ t ∈ l, character t ≠ c) →
      findCharLoop c i l = none := by
  intro l
  induction l with
  | nil => intro i _; rfl
  | cons t ts ih =>
      intro i h
      show (if character t = c then some i else findCharLoop c (i + 1) ts) = none
      rw [if_neg (h t (List.mem_cons_self t ts)),
        ih (i + 1) (fun u hu => h u (List.mem_cons_of_mem t hu))]

lemma findCharLoop_some (c : Char) :
    ∀ (l : List WSetup) (i j : Nat), findCharLoop c i l = some j →
      ∃ pre t post, l = pre ++ t :: post ∧ j = i + pre.length ∧
        character t = c ∧ ∀ u ∈ pre, character u ≠ c := by
  intro l
  induction l with
  | nil => intro i j h; exact absurd h (by simp [findCharLoop])
  | cons t ts ih =>
      intro i j h
      rw [show findCharLoop c i (t :: ts) =
        (if character t = c then some i else findCharLoop c (i + 1) ts) from rfl] at h
      rcases eq_or_ne (character t) c with hc | hc
      · rw [if_pos hc] at h
        refine ⟨[], t, ts, rfl, ?_, hc, by simp⟩
        simpa using h.symm
      · rw [if_neg hc] at h
        rcases ih (i + 1) j h with ⟨pre, u, post, hl, hj, hcu, hpre⟩
        refine ⟨t :: pre, u, post, by rw [hl]; rfl, by simp; omega, hcu, ?_⟩
        intro v hv
        rcases List.mem_cons.1 hv with hv | hv
        · exact hv ▸ hc
        · exact hpre v hv

/- List difference lemmas for the live-handle accounting. -/

lemma diff_append_left : ∀ (l₁ l₂ : List Window), (l₁ ++ l₂).diff l₁ = l₂ := by
  intro l₁
  induction l₁ with
  | nil => intro l₂; simp
  | cons a l₁ ih =>
      intro l₂
      rw [List.cons_append, List.diff_cons, List.erase_cons_head]
      exact ih l₂

lemma diff_append_right_disjoint :
    ∀ (l₂ l₁ : List Window), l₁.Disjoint l₂ → (l₁ ++ l₂).diff l₂ = l₁ := by
  intro l₂
  induction l₂ with
  | nil => intro l₁ _; simp
  | cons a l₂ ih =>
      intro l₁ hdis
      rw [List.diff_cons,
        List.erase_append_right _ (fun ha => hdis ha (List.mem_cons_self a l₂)),
        List.erase_cons_head]
      exact ih l₁ (fun x hx hmem => hdis hx (List.mem_cons_of_mem a hmem))

/- Session invariant preservation. -/

lemma initSession_inv (ksl : List Char) (ws : List Window) (hnd : ws.Nodup) :
    sessionInv (initSession ksl ws) := by
  have hF : leafWindowsList (initialise_window_tracking ksl ws) = ws :=
    leafWindowsList_buildGo ksl _ ws
  unfold initSession
  generalize hFe : initialise_window_tracking ksl ws = F at hF ⊢
  rcases F with _ | ⟨t, _ | ⟨u, rest⟩⟩
  · exact ⟨List.nodup_nil, rfl, fun f hf => Phase.noConfusion hf⟩
  · rcases t with ⟨w, c⟩ | ⟨c, cs⟩
    · dsimp only
      exact ⟨by rw [hF]; exact hnd, (Nat.zero_add _).symm,
        fun f hf => Phase.noConfusion hf⟩
    · dsimp only [wsetup_choose]
      refine ⟨by rw [hF]; exact hnd, (Nat.zero_add _).symm, fun f hf => ?_⟩
      have hcf : cs = f := Phase.awaiting.inj hf
      rw [← hcf]
      show leafWindowsList [WSetup.node c cs] = leafWindowsList cs
      simp [leafWindowsList, leafWindows]
  · dsimp only
    exact ⟨by rw [hF]; exact hnd, (Nat.zero_add _).symm, fun f hf => by
      have hcf := Phase.awaiting.inj hf
      rw [← hcf]⟩

lemma consume_inv (s : Session) (c : Char) (h : sessionInv s) :
    sessionInv (consume s c) := by
  rcases h with ⟨hnd, hcount, hfr⟩
  rcases hph : s.phase with f | w
  case selected =>
      unfold consume
      rw [hph]
      show sessionInv s
      exact ⟨hnd, hcount, hfr⟩
  case cancelled =>
      unfold consume
      rw [hph]
      show sessionInv s
      exact ⟨hnd, hcount, hfr⟩
  case awaiting =>
  have hlive : s.live = leafWindowsList f := hfr f hph
  unfold consume
  rw [hph]
  show sessionInv
    { phase := match (wsetups_descend_by_char f c).1 with
        | some ph => ph
        | none => Phase.awaiting f,
      live := s.live.diff (wsetups_descend_by_char f c).2,
      binds := s.binds,
      unbinds := s.unbinds + (wsetups_descend_by_char f c).2.length }
  rcases hfind : findCharLoop c 0 f with _ | j
  · have hstep : wsetups_descend_by_char f c = (some Phase.cancelled, []) := by
      unfold wsetups_descend_by_char
      rw [hfind]
    rw [hstep]
    exact ⟨by simpa using hnd, by simpa using hcount,
      fun f2 hf2 => Phase.noConfusion hf2⟩
  · rcases findCharLoop_some c f 0 j hfind with ⟨pre, t, post, hfe, hje, hct, hpre⟩
    have hj0 : j = 0 + pre.length := hje
    rcases t with ⟨w, tc⟩ | ⟨tc, cs⟩
    · have hstep : wsetups_descend_by_char f c =
          (some (Phase.selected w), leafWindowsList pre) := by
        unfold wsetups_descend_by_char wsetups_descend_by_index
        rw [hfind, hj0, hfe]
        exact descend_spec_leaf w tc pre post 0
      rw [hstep]
      have hdecomp : s.live = leafWindowsList pre ++
          ([w] ++ leafWindowsList post) := by
        rw [hlive, hfe, leafWindowsList_append]
        rfl
      have hdiff : s.live.diff (leafWindowsList pre) = [w] ++ leafWindowsList post := by
        rw [hdecomp, diff_append_left]
      refine ⟨?_, ?_, fun f2 hf2 => Phase.noConfusion hf2⟩
      · rw [hdiff]
        have := hdecomp ▸ hnd
        exact ((List.nodup_append.1 this).2.1)
      · rw [hdiff]
        have hlen : s.live.length = (leafWindowsList pre).length +
            (1 + (leafWindowsList post).length) := by
          rw [hdecomp]
          simp only [List.length_append, List.length_singleton]
        show s.binds = s.unbinds + (leafWindowsList pre).length +
          ([w] ++ leafWindowsList post).length
        simp only [List.length_append, List.length_singleton]
        omega
    · have hstep : wsetups_descend_by_char f c =
          (some (Phase.awaiting cs),
            leafWindowsList pre ++ leafWindowsList post) := by
        unfold wsetups_descend_by_char wsetups_descend_by_index
        rw [hfind, hj0, hfe]
        exact descend_spec_node tc cs pre post 0
      rw [hstep]
      have hdecomp : s.live = leafWindowsList pre ++
          (leafWindowsList cs ++ leafWindowsList post) := by
        rw [hlive, hfe, leafWindowsList_append]
        rfl
      have hnd2 : (leafWindowsList pre ++
          (leafWindowsList cs ++ leafWindowsList post)).Nodup := hdecomp ▸ hnd
      have hdisj : (leafWindowsList cs).Disjoint (leafWindowsList post) :=
        (List.nodup_append.1 (List.nodup_append.1 hnd2).2.1).2.2
      have hdiff : s.live.diff (leafWindowsList pre ++ leafWindowsList post) =
          leafWindowsList cs := by
        rw [hdecomp, List.diff_append, diff_append_left,
          diff_append_right_disjoint _ _ hdisj]
      refine ⟨?_, ?_, fun f2 hf2 => ?_⟩
      · rw [hdiff]
        exact (List.nodup_append.1 (List.nodup_append.1 hnd2).2.1).1
      · rw [hdiff]
        have hlen : s.live.length = (leafWindowsList pre).length +
            ((leafWindowsList cs).length + (leafWindowsList post).length) := by
          rw [hdecomp]; simp
        show s.binds = s.unbinds +
          (leafWindowsList pre ++ leafWindowsList post).length +
          (leafWindowsList cs).length
        simp only [List.length_append]
        omega
      · have : cs = f2 := Phase.awaiting.inj hf2
        rw [← this, hdiff]

lemma runConsume_inv (s : Session) (cs : List Char) (h : sessionInv s) :
    sessionInv (runConsume s cs) := by
  induction cs generalizing s with
  | nil => exact h
  | cons c rest ih => exact ih (consume s c) (consume_inv s c h)

/- Characterisation of the CHARACTERS argument parser. -/

lemma parseChars_ok (pool : List Char) :
    ∀ acc : List Char, acc.Nodup →
      ((∃ l, parseChars acc pool = Except.ok l) ↔
        (∀ c ∈ pool, c ∈ ALL_CHARS) ∧
        2 ≤ (acc.toFinset ∪ pool.toFinset).card) := by
  induction pool with
  | nil =>
      intro acc hacc
      rw [parseChars]
      rw [List.toFinset_nil, Finset.union_empty,
        List.toFinset_card_of_nodup hacc]
      rcases lt_or_le acc.length 2 with h | h
      · rw [if_pos h]
        constructor
        · rintro ⟨l, hl⟩
          exact absurd hl (by simp)
        · rintro ⟨_, h2⟩
          omega
      · rw [if_neg (by omega)]
        exact ⟨fun _ => ⟨by simp, h⟩, fun _ => ⟨acc, rfl⟩⟩
  | cons c rest ih =>
      intro acc hacc
      rw [parseChars]
      rcases em (c ∈ ALL_CHARS) with hc | hc
      · rw [if_pos hc]
        rcases em (c ∈ acc) with hmem | hmem
        · rw [if_pos hmem]
          rw [ih acc hacc]
          have hfin : acc.toFinset ∪ (c :: rest).toFinset =
              acc.toFinset ∪ rest.toFinset := by
            rw [List.toFinset_cons, Finset.union_insert,
              Finset.insert_eq_self.2
                (Finset.mem_union_left _ (List.mem_toFinset.2 hmem))]
          rw [hfin]
          constructor
          · rintro ⟨hv, h2⟩
            refine ⟨fun x hx => ?_, h2⟩
            rcases List.mem_cons.1 hx with hx | hx
            · exact hx ▸ hc
            · exact hv x hx
          · rintro ⟨hv, h2⟩
            exact ⟨fun x hx => hv x (List.mem_cons_of_mem c hx), h2⟩
        · rw [if_neg hmem]
          have hacc2 : (acc ++ [c]).Nodup :=
            List.Nodup.append hacc (List.nodup_singleton c)
              (fun x hx hxc => hmem ((List.mem_singleton.1 hxc) ▸ hx))
          rw [ih (acc ++ [c]) hacc2]
          have hfin : (acc ++ [c]).toFinset ∪ rest.toFinset =
              acc.toFinset ∪ (c :: rest).toFinset := by
            ext x
            simp only [List.toFinset_append, List.toFinset_cons, List.toFinset_nil,
              Finset.mem_union, Finset.mem_insert, Finset.not_mem_empty,
              List.mem_toFinset]
            tauto
          rw [hfin]
          constructor
          · rintro ⟨hv, h2⟩
            refine ⟨fun x hx => ?_, h2⟩
            rcases List.mem_cons.1 hx with hx | hx
            · exact hx ▸ hc
            · exact hv x hx
          · rintro ⟨hv, h2⟩
            exact ⟨fun x hx => hv x (List.mem_cons_of_mem c hx), h2⟩
      · rw [if_neg hc]
        constructor
        · rintro ⟨l, hl⟩
          exact absurd hl (by simp)
        · rintro ⟨hv, _⟩
          exact absurd (hv c (List.mem_cons_self c rest)) hc

/- Bound on the sizes reaching the base case of the builder. -/

lemma baseSizesLoop_mem (rec : Nat → List Nat) (p r : Nat) :
    ∀ fuel i x, x ∈ baseSizesLoop rec p r fuel i →
      ∃ g, ((g = p + 1 ∧ 0 < r) ∨ g = p) ∧ g ≠ 1 ∧ x ∈ rec g := by
  intro fuel
  induction fuel with
  | zero => intro i x hx; simp [baseSizesLoop] at hx
  | succ fuel ih =>
      intro i x hx
      rw [show baseSizesLoop rec p r (fuel + 1) i =
        (if (if i < r then p + 1 else p) = 1 then []
         else rec (if i < r then p + 1 else p)) ++
        baseSizesLoop rec p r fuel (i + 1) from rfl] at hx
      rcases List.mem_append.1 hx with hh | ht
      · rcases eq_or_ne (if i < r then p + 1 else p) 1 with h1 | h1
        · rw [if_pos h1] at hh
          simp at hh
        · rw [if_neg h1] at hh
          refine ⟨if i < r then p + 1 else p, ?_, h1, hh⟩
          rcases lt_or_le i r with h | h
          · rw [if_pos h]; exact Or.inl ⟨rfl, by omega⟩
          · rw [if_neg (by omega : ¬ i < r)]; exact Or.inr rfl
      · exact ih (i + 1) x ht

lemma baseSizes_le (K : Nat) (hK : 2 ≤ K) :
    ∀ d s, s ≤ K ^ (d + 1) → ∀ x ∈ baseSizes K d s, x ≤ K := by
  intro d
  induction d with
  | zero =>
      intro s hs x hx
      rw [show baseSizes K 0 s = [s] from rfl, List.mem_singleton] at hx
      rw [pow_one] at hs
      omega
  | succ d ih =>
      intro s hs x hx
      rw [show baseSizes K (d + 1) s =
        baseSizesLoop (baseSizes K d) (s / K) (s % K)
          (if 0 < s / K then K else s % K) 0 from rfl] at hx
      obtain ⟨g, hg, hg1, hxg⟩ := baseSizesLoop_mem (baseSizes K d) _ _ _ 0 x hx
      have hb := group_size_le K d s (by omega) hs
      have hgle : g ≤ K ^ (d + 1) := by
        rcases hg with ⟨hge, hr⟩ | hge
        · have hr0 : s % K ≠ 0 := by omega
          have := hb.1 hr0
          omega
        · omega
      exact ih g hgle x hxg

/- Refinement of the recursive step against the partition the spec describes. -/

lemma group_count_eq_min (N K : Nat) (hK : 1 ≤ K) :
    (if 0 < N / K then K else N % K) = min N K := by
  rcases Nat.lt_or_ge N K with h | h
  · rw [if_neg (by simp [Nat.div_eq_of_lt h]), Nat.mod_eq_of_lt h]
    omega
  · rw [if_pos (Nat.div_pos h (by omega))]
    omega

lemma headD_take_one (l : List Window) (d : Window) :
    (l.take 1).headD d = l.headD d := by
  cases l <;> rfl

lemma buildGroups_eq_spec (ksl : List Char) (rec : List Window → List WSetup)
    (hK : 1 ≤ ksl.length) (ws : List Window) :
    ∀ fuel i, i + fuel = min ws.length ksl.length →
      buildGroups ksl rec (ws.length / ksl.length) (ws.length % ksl.length)
        fuel i
        (ws.drop (gstart (ws.length / ksl.length) (ws.length % ksl.length) i)) =
      (List.range' i fuel).map (fun j =>
        if (specGroup ws ksl.length j).length = 1
        then WSetup.leaf ((specGroup ws ksl.length j).headD 0) (kslChar ksl j)
        else WSetup.node (kslChar ksl j) (rec (specGroup ws ksl.length j))) := by
  intro fuel
  induction fuel with
  | zero => intro i _; rfl
  | succ fuel ih =>
      intro i hi
      have hm : gstart (ws.length / ksl.length) (ws.length % ksl.length)
          (min ws.length ksl.length) = ws.length := by
        rw [← group_count_eq_min ws.length ksl.length hK]
        exact gstart_total ksl.length ws.length
      have hsucc := gstart_succ (ws.length / ksl.length) (ws.length % ksl.length) i
      have hmono : gstart (ws.length / ksl.length) (ws.length % ksl.length) (i + 1) ≤
          gstart (ws.length / ksl.length) (ws.length % ksl.length)
            (min ws.length ksl.length) :=
        gstart_mono _ _ (by omega)
      have hsz : gstart (ws.length / ksl.length) (ws.length % ksl.length) i +
          gsize (ws.length / ksl.length) (ws.length % ksl.length) i ≤ ws.length := by
        omega
      have hgrp : specGroup ws ksl.length i =
          (ws.drop (gstart (ws.length / ksl.length) (ws.length % ksl.length) i)).take
            (gsize (ws.length / ksl.length) (ws.length % ksl.length) i) := rfl
      have hgrplen : (specGroup ws ksl.length i).length =
          gsize (ws.length / ksl.length) (ws.length % ksl.length) i := by
        rw [hgrp, List.length_take, List.length_drop]
        omega
      rw [List.range'_succ i fuel 1, List.map_cons]
      rw [show buildGroups ksl rec (ws.length / ksl.length) (ws.length % ksl.length)
        (fuel + 1) i
        (ws.drop (gstart (ws.length / ksl.length) (ws.length % ksl.length) i)) =
        (if gsize (ws.length / ksl.length) (ws.length % ksl.length) i = 1
         then WSetup.leaf
           ((ws.drop (gstart (ws.length / ksl.length) (ws.length % ksl.length) i)).headD 0)
           (kslChar ksl i)
         else WSetup.node (kslChar ksl i)
           (rec ((ws.drop (gstart (ws.length / ksl.length) (ws.length % ksl.length) i)).take
             (gsize (ws.length / ksl.length) (ws.length % ksl.length) i)))) ::
        buildGroups ksl rec (ws.length / ksl.length) (ws.length % ksl.length) fuel (i + 1)
          ((ws.drop (gstart (ws.length / ksl.length) (ws.length % ksl.length) i)).drop
            (gsize (ws.length / ksl.length) (ws.length % ksl.length) i)) from rfl]
      have htail : (ws.drop (gstart (ws.length / ksl.length) (ws.length % ksl.length) i)).drop
          (gsize (ws.length / ksl.length) (ws.length % ksl.length) i) =
          ws.drop (gstart (ws.length / ksl.length) (ws.length % ksl.length) (i + 1)) := by
        rw [List.drop_drop, hsucc, Nat.add_comm]
      rw [htail, ih (i + 1) (by omega)]
      rcases eq_or_ne (gsize (ws.length / ksl.length) (ws.length % ksl.length) i) 1 with
        h1 | h1
      · rw [if_pos h1, if_pos (by rw [hgrplen]; exact h1)]
        rw [hgrp, h1, headD_take_one]
      · rw [if_neg h1, if_neg (by rw [hgrplen]; exact h1), hgrp]

/- Evaluation helpers for the logarithmic depth formulas. -/

lemma trackingDepth_eval (K N m : Nat) (h1 : K ^ m ≤ max (N - 1) 1)
    (h2 : max (N - 1) 1 < K ^ (m + 1)) : trackingDepth K N = m :=
  Nat.log_eq_of_pow_le_of_lt_pow h1 h2

lemma clog_eval (b n m : Nat) (hb : 1 < b) (h1 : b ^ m < n) (h2 : n ≤ b ^ (m + 1)) :
    Nat.clog b n = m + 1 := by
  have hle : Nat.clog b n ≤ m + 1 := (Nat.le_pow_iff_clog_le hb).1 h2
  have hgt : m < Nat.clog b n := (Nat.pow_lt_iff_lt_clog hb).1 h1
  omega

lemma log_le_max_one_clog (K M : Nat) (hK : 1 < K) (hM : 1 ≤ M) :
    Nat.log K M ≤ max 1 (Nat.clog K M) := by
  have h1 : K ^ Nat.log K M ≤ M := Nat.pow_log_le_self K (by omega)
  have h2 : M ≤ K ^ Nat.clog K M := Nat.le_pow_clog hK M
  have h3 : K ^ Nat.log K M ≤ K ^ Nat.clog K M := le_trans h1 h2
  have h4 := (Nat.pow_le_pow_iff_right hK).1 h3
  omega

/- Concrete evaluations of the tracking depth (the C expression casts a
floating-point logarithm quotient; these lemmas pin down its exact value on
the inputs used below). -/

lemma build_eval_32 : initialise_window_tracking ['a', 'b'] [0, 1, 2] =
    buildGo ['a', 'b'] 1 [0, 1, 2] := by
  unfold initialise_window_tracking
  rw [show trackingDepth (['a', 'b'] : List Char).length
    ([0, 1, 2] : List Window).length = 1 from
    trackingDepth_eval 2 3 1 (by decide) (by decide)]

lemma build_eval_22 : initialise_window_tracking ['a', 'b'] [5, 6] =
    buildGo ['a', 'b'] 0 [5, 6] := by
  unfold initialise_window_tracking
  rw [show trackingDepth (['a', 'b'] : List Char).length
    ([5, 6] : List Window).length = 0 from
    trackingDepth_eval 2 2 0 (by decide) (by decide)]

lemma build_eval_37 : initialise_window_tracking ['a', 'b', 'c'] [1, 2, 3, 4, 5, 6, 7] =
    buildGo ['a', 'b', 'c'] 1 [1, 2, 3, 4, 5, 6, 7] := by
  unfold initialise_window_tracking
  rw [show trackingDepth (['a', 'b', 'c'] : List Char).length
    ([1, 2, 3, 4, 5, 6, 7] : List Window).length = 1 from
    trackingDepth_eval 3 7 1 (by decide) (by decide)]

/-- C1 counterexample: with N = 3 windows and the valid 2-symbol alphabet
['a','b'] the spec bound D = max(1, ceil(log(max(N-1,1))/log(K))) evaluates
to 1, but the built tree contains the leaf path "aa" of length 2, so not
every leaf path has length at most D. -/
theorem claim_c1_cex :
    ¬ (∀ p ∈ leafPathsList (initialise_window_tracking ['a', 'b'] [0, 1, 2]),
        p.length ≤ max 1 (Nat.clog 2 (max (3 - 1) 1))) := by
  rw [build_eval_32]
  rw [show max 1 (Nat.clog 2 (max (3 - 1) 1)) = 1 from by
    rw [show (max (3 - 1) 1 : Nat) = 2 from by decide,
      clog_eval 2 2 0 (by norm_num) (by norm_num) (by norm_num)]
    decide]
  decide

/-- C1 amended: for N > 1 windows and a valid alphabet (K >= 2, no duplicate
symbols), every leaf of the tree built by initialise_window_tracking has a
distinct symbol path, of length at most D + 1 (one more than the spec's
claimed bound D = max(1, ceil(log(max(N-1,1))/log(K))), because the code
computes the depth with a floor rather than a ceiling and then labels one
further level). -/
theorem claim_c1_amended (ksl : List Char) (ws : List Window)
    (hK : 2 ≤ ksl.length) (hnd : ksl.Nodup) (hN : 1 < ws.length) :
    (leafPathsList (initialise_window_tracking ksl ws)).Nodup ∧
    ∀ p ∈ leafPathsList (initialise_window_tracking ksl ws),
      p.length ≤ max 1 (Nat.clog ksl.length (max (ws.length - 1) 1)) + 1 := by
  have hinv : ws.length ≤ ksl.length ^ (trackingDepth ksl.length ws.length + 1) :=
    tracking_invariant ksl.length ws.length hK
  have hsound := build_sound ksl hnd hK (trackingDepth ksl.length ws.length) ws hinv
  refine ⟨hsound.2.2.1, fun p hp => ?_⟩
  have hlen := leafPaths_buildGo_le ksl (trackingDepth ksl.length ws.length) ws p hp
  have hdle : Nat.log ksl.length (max (ws.length - 1) 1) ≤
      max 1 (Nat.clog ksl.length (max (ws.length - 1) 1)) :=
    log_le_max_one_clog ksl.length (max (ws.length - 1) 1) (by omega) (by omega)
  have hdd : trackingDepth ksl.length ws.length =
      Nat.log ksl.length (max (ws.length - 1) 1) := rfl
  omega

/-- C1 witness: the amended claim instantiated at alphabet ['a','b'] and
windows [0,1,2]. -/
theorem claim_c1_witness :
    2 ≤ (['a', 'b'] : List Char).length ∧ (['a', 'b'] : List Char).Nodup ∧
    1 < ([0, 1, 2] : List Window).length ∧
    ((leafPathsList (initialise_window_tracking ['a', 'b'] [0, 1, 2])).Nodup ∧
      ∀ p ∈ leafPathsList (initialise_window_tracking ['a', 'b'] [0, 1, 2]),
        p.length ≤ max 1 (Nat.clog 2 (max (3 - 1) 1)) + 1) :=
  ⟨by decide, by decide, by decide,
    claim_c1_amended ['a', 'b'] [0, 1, 2] (by decide) (by decide) (by decide)⟩

/-- C2 counterexample: in the frontier built for windows [5,6] with alphabet
['a','b'], consuming 'a' selects the leaf for window 5, but the overlay
handle of the sibling leaf for window 6 is never unbound (the process exits
inside wsetup_choose before the loop reaches the later siblings), and the
chosen leaf's own handle is not unbound either: the unbind list is empty. -/
theorem claim_c2_cex :
    initialise_window_tracking ['a', 'b'] [5, 6] =
      [WSetup.leaf 5 'a', WSetup.leaf 6 'b'] ∧
    (wsetups_descend_by_char (initialise_window_tracking ['a', 'b'] [5, 6]) 'a').1 =
      some (Phase.selected 5) ∧
    ¬ (6 ∈ (wsetups_descend_by_char (initialise_window_tracking ['a', 'b'] [5, 6]) 'a').2) := by
  rw [build_eval_22]
  exact ⟨rfl, rfl, by decide⟩

/-- C2 amended: when the matched setup at position `index` is internal,
wsetups_descend_by_index frees every sibling subtree other than the matched
one (those before and after it) before returning and the frontier becomes
the matched node's children; when the matched setup is a leaf, only the
siblings before it are freed — the session terminates as Selected with the
chosen leaf's handle and the later siblings' handles still bound, left to
process exit. -/
theorem claim_c2_amended (pre post : List WSetup) (t : WSetup) :
    (∀ c cs, t = WSetup.node c cs →
      wsetups_descend_by_index (pre ++ t :: post) pre.length =
        (some (Phase.awaiting cs), leafWindowsList pre ++ leafWindowsList post)) ∧
    (∀ w c, t = WSetup.leaf w c →
      wsetups_descend_by_index (pre ++ t :: post) pre.length =
        (some (Phase.selected w), leafWindowsList pre)) := by
  constructor
  · intro c cs ht
    subst ht
    have h := descend_spec_node c cs pre post 0
    rw [Nat.zero_add] at h
    exact h
  · intro w c ht
    subst ht
    have h := descend_spec_leaf w c pre post 0
    rw [Nat.zero_add] at h
    exact h

/-- C2 witness: the amended claim instantiated at a frontier with an
internal match (siblings before and after freed) and at a frontier with a
leaf match (only the earlier sibling freed). -/
theorem claim_c2_witness :
    wsetups_descend_by_index
        [WSetup.leaf 1 'a', WSetup.node 'b' [WSetup.leaf 2 'a', WSetup.leaf 3 'b'],
          WSetup.leaf 4 'c'] 1 =
      (some (Phase.awaiting [WSetup.leaf 2 'a', WSetup.leaf 3 'b']), [1, 4]) ∧
    wsetups_descend_by_index [WSetup.leaf 1 'a', WSetup.leaf 2 'b'] 0 =
      (some (Phase.selected 1), []) :=
  ⟨(claim_c2_amended [WSetup.leaf 1 'a'] [WSetup.leaf 4 'c']
      (WSetup.node 'b' [WSetup.leaf 2 'a', WSetup.leaf 3 'b'])).1
      'b' [WSetup.leaf 2 'a', WSetup.leaf 3 'b'] rfl,
    (claim_c2_amended [] [WSetup.leaf 2 'b'] (WSetup.leaf 1 'a')).2 1 'a' rfl⟩

/-- C3 counterexample: the frontier for windows [5,6] holds two bound
handles, yet consuming the unmatched symbol 'z' cancels with an empty unbind
list — handle 5 (like handle 6) is never unbound, contradicting one unbind
per previously-bound handle. -/
theorem claim_c3_cex :
    leafWindowsList (initialise_window_tracking ['a', 'b'] [5, 6]) = [5, 6] ∧
    wsetups_descend_by_char (initialise_window_tracking ['a', 'b'] [5, 6]) 'z' =
      (some Phase.cancelled, []) ∧
    ¬ (5 ∈ (wsetups_descend_by_char (initialise_window_tracking ['a', 'b'] [5, 6]) 'z').2) := by
  rw [build_eval_22]
  exact ⟨rfl, rfl, by decide⟩

/-- C3 amended: consuming a symbol that matches no setup of the current
frontier transitions to Cancelled immediately with zero unbind calls
(xcw_exit_no_match exits the process without freeing anything); the frontier
resources are reclaimed only by process exit. -/
theorem claim_c3_amended (f : List WSetup) (c : Char)
    (h : ∀ t ∈ f, character t ≠ c) :
    wsetups_descend_by_char f c = (some Phase.cancelled, []) := by
  unfold wsetups_descend_by_char
  rw [findCharLoop_none c f 0 h]

/-- C3 witness: the amended claim instantiated at a two-leaf frontier and
the unmatched symbol 'z'. -/
theorem claim_c3_witness :
    (∀ t ∈ [WSetup.leaf 5 'a', WSetup.leaf 6 'b'], character t ≠ 'z') ∧
    wsetups_descend_by_char [WSetup.leaf 5 'a', WSetup.leaf 6 'b'] 'z' =
      (some Phase.cancelled, []) :=
  ⟨by decide, claim_c3_amended [WSetup.leaf 5 'a', WSetup.leaf 6 'b'] 'z' (by decide)⟩

/-- C4 counterexample: in the session initialised for windows [0,1,2] with
alphabet ['a','b'], the frontier contains the internal setup for symbol 'a',
which holds no bound overlay handle (internal setups have
overlay_window == NULL; the handles were bound to the leaves of the whole
tree at build time), so the set of nodes holding a live handle is not the
frontier. -/
theorem claim_c4_cex :
    (frontierOf (initSession ['a', 'b'] [0, 1, 2]).phase).all
      (fun t => holdsHandle (initSession ['a', 'b'] [0, 1, 2]) t) = false := by
  have h : initSession ['a', 'b'] [0, 1, 2] =
      { phase := Phase.awaiting (buildGo ['a', 'b'] 1 [0, 1, 2]),
        live := leafWindowsList (buildGo ['a', 'b'] 1 [0, 1, 2]),
        binds := (leafWindowsList (buildGo ['a', 'b'] 1 [0, 1, 2])).length,
        unbinds := 0 } := by
    unfold initSession
    rw [build_eval_32]
    rfl
  rw [h]
  decide

/-- C4 amended: for pairwise-distinct windows, after any sequence of
consumed symbols the session satisfies the resource invariant that actually
holds in the code: the live overlay handles are exactly the overlays of the
leaves of the current remaining forest (not of the frontier setups
themselves), and the bind count equals the unbind count plus the number of
handles still live — terminal states may therefore be reached with
unbinds < binds, the remainder being reclaimed only by process exit. -/
theorem claim_c4_amended (ksl : List Char) (ws : List Window) (hnd : ws.Nodup)
    (cs : List Char) :
    sessionInv (runConsume (initSession ksl ws) cs) :=
  runConsume_inv (initSession ksl ws) cs (initSession_inv ksl ws hnd)

/-- C4 witness: the amended invariant instantiated at alphabet ['a','b'],
windows [0,1,2] and the consumed sequence ['a']. -/
theorem claim_c4_witness :
    ([0, 1, 2] : List Window).Nodup ∧
    sessionInv (runConsume (initSession ['a', 'b'] [0, 1, 2]) ['a']) :=
  ⟨by decide, claim_c4_amended ['a', 'b'] [0, 1, 2] (by decide) ['a']⟩

/-- C5: every recursion level of the builder with remaining depth d+1
partitions its window list exactly as the spec describes: into
m = min(N,K) ordered order-preserving groups (group i of size p+1 for
i < r = N mod K and size p = N div K otherwise, starting at offset
i*p + min i r), assigns group i the alphabet symbol i, turns a group of
size 1 into a leaf for its single window, and builds any other group by
recursing with the same full alphabet at depth d. -/
theorem claim_c5 (ksl : List Char) (hK : 2 ≤ ksl.length) (d : Nat)
    (ws : List Window) :
    buildGo ksl (d + 1) ws =
      (List.range (min ws.length ksl.length)).map (fun i =>
        if (specGroup ws ksl.length i).length = 1
        then WSetup.leaf ((specGroup ws ksl.length i).headD 0) (kslChar ksl i)
        else WSetup.node (kslChar ksl i)
          (buildGo ksl d (specGroup ws ksl.length i))) := by
  have h := buildGroups_eq_spec ksl (buildGo ksl d) (by omega) ws
    (min ws.length ksl.length) 0 (by omega)
  have h0 : gstart (ws.length / ksl.length) (ws.length % ksl.length) 0 = 0 := by
    simp [gstart]
  rw [h0, List.drop_zero] at h
  rw [List.range_eq_range']
  rw [show buildGo ksl (d + 1) ws = buildGroups ksl (buildGo ksl d)
    (ws.length / ksl.length) (ws.length % ksl.length)
    (if 0 < ws.length / ksl.length then ksl.length else ws.length % ksl.length)
    0 ws from rfl]
  rw [group_count_eq_min ws.length ksl.length (by omega)]
  exact h

/-- C5 witness: the partition refinement instantiated at alphabet
['a','b','c'], windows [1..7] and one level of recursion. -/
theorem claim_c5_witness :
    2 ≤ (['a', 'b', 'c'] : List Char).length ∧
    buildGo ['a', 'b', 'c'] 1 [1, 2, 3, 4, 5, 6, 7] =
      (List.range (min 7 3)).map (fun i =>
        if (specGroup [1, 2, 3, 4, 5, 6, 7] 3 i).length = 1
        then WSetup.leaf ((specGroup [1, 2, 3, 4, 5, 6, 7] 3 i).headD 0)
          (kslChar ['a', 'b', 'c'] i)
        else WSetup.node (kslChar ['a', 'b', 'c'] i)
          (buildGo ['a', 'b', 'c'] 0 (specGroup [1, 2, 3, 4, 5, 6, 7] 3 i))) :=
  ⟨by decide, claim_c5 ['a', 'b', 'c'] (by decide) 0 [1, 2, 3, 4, 5, 6, 7]⟩

/-- C6: for every item list and alphabet, the forest built by
initialise_window_tracking has exactly N leaves, and the windows carried by
its leaves read left to right are exactly the input window sequence — each
input item appears exactly once, in the same relative order. -/
theorem claim_c6 (ksl : List Char) (ws : List Window) :
    leafWindowsList (initialise_window_tracking ksl ws) = ws ∧
    (leafWindowsList (initialise_window_tracking ksl ws)).length = ws.length := by
  have h : leafWindowsList (initialise_window_tracking ksl ws) = ws :=
    leafWindowsList_buildGo ksl (trackingDepth ksl.length ws.length) ws
  exact ⟨h, by rw [h]⟩

/-- C7 counterexample: the pool "aab" contains a duplicate symbol, yet
parse_arg_characters succeeds (duplicates are silently dropped, producing
['a','b']), contradicting the claim that construction fails exactly when
the sequence has size < 2 or contains duplicates. -/
theorem claim_c7_cex :
    parse_arg_characters ['a', 'a', 'b'] = Except.ok ['a', 'b'] ∧
    ¬ (['a', 'a', 'b'] : List Char).Nodup :=
  ⟨rfl, by decide⟩

/-- C7 amended: parse_arg_characters succeeds exactly when every supplied
character is one of the recognised characters 0-9a-z and at least two
distinct characters are supplied; duplicates are dropped silently rather
than rejected, and an unrecognised character is rejected even in an
otherwise valid pool.  The check runs during argument parsing, before the
builder. -/
theorem claim_c7_amended (pool : List Char) :
    (∃ l, parse_arg_characters pool = Except.ok l) ↔
      (∀ c ∈ pool, c ∈ ALL_CHARS) ∧ 2 ≤ pool.toFinset.card := by
  unfold parse_arg_characters
  rw [parseChars_ok pool [] List.nodup_nil]
  rw [List.toFinset_nil, Finset.empty_union]

/-- C8 counterexample: a single-window session starts directly in
Selected(7) without any consume, but one bind has been performed — the
single leaf's overlay is created by initialise_window_setup during the
build — contradicting the claim of zero bind calls. -/
theorem claim_c8_cex :
    (initSession ['a', 'b'] [7]).phase = Phase.selected 7 ∧
    ¬ ((initSession ['a', 'b'] [7]).binds = 0) := by
  have hb : initialise_window_tracking ['a', 'b'] [7] = [WSetup.leaf 7 'a'] := by
    unfold initialise_window_tracking
    rw [show trackingDepth (['a', 'b'] : List Char).length
      ([7] : List Window).length = 0 from
      trackingDepth_eval 2 1 0 (by decide) (by decide)]
    rfl
  have h : initSession ['a', 'b'] [7] =
      { phase := Phase.selected 7, live := [7], binds := 1, unbinds := 0 } := by
    unfold initSession
    rw [hb]
    rfl
  rw [h]
  exact ⟨rfl, by decide⟩

/-- C8 amended: for any alphabet, a session over a single window starts
directly in Selected(that window) with no consume required, with exactly
one bind (the leaf's overlay, created at build time) and zero unbinds; the
one handle is still live when the process exits. -/
theorem claim_c8_amended (ksl : List Char) (w : Window) :
    (initSession ksl [w]).phase = Phase.selected w ∧
    (initSession ksl [w]).binds = 1 ∧
    (initSession ksl [w]).unbinds = 0 ∧
    (initSession ksl [w]).live = [w] := by
  have hd : trackingDepth ksl.length ([w] : List Window).length = 0 := by
    show Nat.log ksl.length (max (1 - 1) 1) = 0
    exact Nat.log_one_right ksl.length
  have hb : initialise_window_tracking ksl [w] = [WSetup.leaf w (kslChar ksl 0)] := by
    unfold initialise_window_tracking
    rw [hd]
    rfl
  have h : initSession ksl [w] =
      { phase := Phase.selected w, live := [w], binds := 1, unbinds := 0 } := by
    unfold initSession
    rw [hb]
    rfl
  rw [h]
  exact ⟨rfl, rfl, rfl, rfl⟩

/-- C9: for Items [1..7] and Alphabet ['a','b','c'] the builder produces
top-level group sizes [3,2,2] on symbols a, b, c; group 'a' is internal and
holds items 1,2,3 as three leaves labelled a, b, c; and consuming 'a' then
'b' reaches the terminal state Selected(2). -/
theorem claim_c9 :
    (initialise_window_tracking ['a', 'b', 'c'] [1, 2, 3, 4, 5, 6, 7]).map
        (fun t => (character t, (leafWindows t).length)) =
      [('a', 3), ('b', 2), ('c', 2)] ∧
    (initialise_window_tracking ['a', 'b', 'c'] [1, 2, 3, 4, 5, 6, 7]).headD
        (WSetup.leaf 0 ' ') =
      WSetup.node 'a' [WSetup.leaf 1 'a', WSetup.leaf 2 'b', WSetup.leaf 3 'c'] ∧
    (runConsume (initSession ['a', 'b', 'c'] [1, 2, 3, 4, 5, 6, 7]) ['a', 'b']).phase =
      Phase.selected 2 := by
  refine ⟨by rw [build_eval_37]; rfl, by rw [build_eval_37]; rfl, ?_⟩
  have h : initSession ['a', 'b', 'c'] [1, 2, 3, 4, 5, 6, 7] =
      { phase := Phase.awaiting (buildGo ['a', 'b', 'c'] 1 [1, 2, 3, 4, 5, 6, 7]),
        live := leafWindowsList (buildGo ['a', 'b', 'c'] 1 [1, 2, 3, 4, 5, 6, 7]),
        binds := (leafWindowsList (buildGo ['a', 'b', 'c'] 1 [1, 2, 3, 4, 5, 6, 7])).length,
        unbinds := 0 } := by
    unfold initSession
    rw [build_eval_37]
    rfl
  rw [h]
  rfl

/-- C10: for a valid alphabet (K >= 2, distinct symbols) and any window
count, every invocation of the builder's base case receives at most K
windows, so each key-list lookup ksl[i] performed there is in bounds; and
throughout the built forest every sibling group (the root frontier and the
children of every internal node) has at most K members carrying pairwise
distinct symbols. -/
theorem claim_c10 (ksl : List Char) (ws : List Window)
    (hK : 2 ≤ ksl.length) (hnd : ksl.Nodup) :
    (∀ s ∈ baseSizes ksl.length (trackingDepth ksl.length ws.length) ws.length,
      s ≤ ksl.length) ∧
    (initialise_window_tracking ksl ws).length ≤ ksl.length ∧
    ((initialise_window_tracking ksl ws).map character).Nodup ∧
    groupsOkList ksl.length (initialise_window_tracking ksl ws) = true := by
  have hinv := tracking_invariant ksl.length ws.length hK
  have hsound := build_sound ksl hnd hK (trackingDepth ksl.length ws.length) ws hinv
  exact ⟨fun s hs => baseSizes_le ksl.length hK _ _ hinv s hs,
    hsound.1, hsound.2.1, hsound.2.2.2⟩

/-- C10 witness: the base-case bound instantiated at alphabet ['a','b'] and
windows [0,1,2]. -/
theorem claim_c10_witness :
    2 ≤ (['a', 'b'] : List Char).length ∧ (['a', 'b'] : List Char).Nodup ∧
    ((∀ s ∈ baseSizes (['a', 'b'] : List Char).length
        (trackingDepth (['a', 'b'] : List Char).length
          ([0, 1, 2] : List Window).length)
        ([0, 1, 2] : List Window).length, s ≤ (['a', 'b'] : List Char).length) ∧
      (initialise_window_tracking ['a', 'b'] [0, 1, 2]).length ≤
        (['a', 'b'] : List Char).length ∧
      ((initialise_window_tracking ['a', 'b'] [0, 1, 2]).map character).Nodup ∧
      groupsOkList (['a', 'b'] : List Char).length
        (initialise_window_tracking ['a', 'b'] [0, 1, 2]) = true) :=
  ⟨by decide, by decide, claim_c10 ['a', 'b'] [0, 1, 2] (by decide) (by decide)⟩

end XWS
